import Mathlib

/-!
Verification of the symbolic expression translation engine of
z-quantum-core: the expression IR (`Symbol`, `FunctionCall`, literal
numbers), the dialect registry, the builder importing a foreign
(sympy-style) expression tree into the IR, and the generic recursive
translator parameterized by a dialect.  The data types
(`Symbol`, `FunctionCall`, `ExpressionDialect`) and the `reduction`
combinator are embedded from
`src/python/zquantum/core/wip/circuits/symbolic/expressions.py`;
`MultiPhaseOperation` is embedded from
`src/python/zquantum/core/wip/circuits/_wavefunction_operations.py`.
The builder (`expression_from_sympy`) and translator
(`translate_expression`) bodies are not part of the source tree (only
their test suite is), so they are modelled from the specification, as
noted in their doc comments.
-/

namespace ZQ

/-- Kind of a native number: integer, real (float) or complex. -/
inductive NumKind where
  | intKind
  | realKind
  | complexKind
deriving DecidableEq, Repr

/-- Native number carried in IR leaves.  Python distinguishes `int`,
`float` and `complex` values; reals are modelled exactly as rationals
(every value appearing in the code, e.g. `0.375`, is exactly
representable). -/
inductive NativeNum where
  | int (n : Int)
  | real (q : ℚ)
  | complex (re im : ℚ)
deriving DecidableEq, Repr

/-- The Python type (`int` / `float` / `complex`) of a native number. -/
def NativeNum.kind : NativeNum → NumKind
  | .int _ => .intKind
  | .real _ => .realKind
  | .complex _ _ => .complexKind

/-- Abstract symbol (class `Symbol` in `expressions.py`): a named leaf. -/
structure Symbol where
  name : String
deriving DecidableEq, Repr

/-- The IR expression union `Symbol | FunctionCall | Number`.
`call name args` embeds the `FunctionCall` NamedTuple of
`expressions.py` (fields `name` and `args`); the type itself places no
constraint on the length of `args`. -/
inductive Expression where
  | symbol (s : Symbol)
  | num (n : NativeNum)
  | call (name : String) (args : List Expression)

/-- Foreign (sympy-style) expression tree: the node kinds the builder
classifies — atomic named variable, numeric literals (exact integer,
exact rational, real literal, the imaginary unit), n-ary sum, n-ary
product, power, and named function application. -/
inductive Sympy where
  | symbol (name : String)
  | int (n : Int)
  | rational (p q : Int)
  | realLit (q : ℚ)
  | imagUnit
  | add (terms : List Sympy)
  | mul (factors : List Sympy)
  | pow (base expo : Sympy)
  | func (name : String) (args : List Sympy)

/-- Modelled from the spec: "`e` equals the literal `-1`" — the test
used by the power rule and the reciprocal-factor test. -/
def Sympy.isNegOneLit : Sympy → Bool
  | .int n => n == -1
  | _ => false

/-- Modelled from the spec: a factor that is a power with exponent
exactly `-1` (a "reciprocal factor"). -/
def Sympy.isReciprocalFactor : Sympy → Bool
  | .pow _ e => e.isNegOneLit
  | _ => false

/-- Modelled from the spec: `is_multiplication_by_reciprocal` — true
iff exactly one factor is a power with exponent exactly `-1` and there
are exactly two factors total. -/
def is_multiplication_by_reciprocal : Sympy → Bool
  | .mul factors =>
      factors.length == 2 && factors.countP (fun f => f.isReciprocalFactor) == 1
  | _ => false

/-- Modelled from the spec: a term that is syntactically a negation —
either a product whose factors are exactly `[-1, x]`, or the literal
number `-1` itself. -/
def Sympy.isNegationTerm : Sympy → Bool
  | .mul [.int n, _] => n == -1
  | .int n => n == -1
  | _ => false

/-- Modelled from the spec: `is_addition_of_negation` — true iff the
sum has exactly two terms and at least one term is syntactically a
negation. -/
def is_addition_of_negation : Sympy → Bool
  | .add terms => terms.length == 2 && terms.any (fun t => t.isNegationTerm)
  | _ => false

/-- Modelled from the spec: the operand negated by a negation term.
For a product with factors exactly `[-1, x]` the operand is `x`; for
the literal `-1` the spec designates the other term of the sum (the
argument `other`). Returns `none` when the term is not a negation. -/
def negationOperand (other : Sympy) : Sympy → Option Sympy
  | .mul [.int n, x] => if n == -1 then some x else none
  | .int n => if n == -1 then some other else none
  | _ => none

theorem isNegationTerm_iff_negationOperand (other t : Sympy) :
    t.isNegationTerm = true ↔ ∃ x, negationOperand other t = some x := by
  cases t with
  | mul factors =>
      match factors with
      | [] => simp [Sympy.isNegationTerm, negationOperand]
      | [a] => cases a <;> simp [Sympy.isNegationTerm, negationOperand]
      | a :: b :: c :: rest => cases a <;> simp [Sympy.isNegationTerm, negationOperand]
      | [a, b] =>
          cases a <;> simp [Sympy.isNegationTerm, negationOperand]
  | int n =>
      simp [Sympy.isNegationTerm, negationOperand]
  | _ => simp [Sympy.isNegationTerm, negationOperand]

/-- Base of a power node (identity on other nodes); used by the
reciprocal rule, which only ever applies it to a power. -/
def Sympy.powBase : Sympy → Sympy
  | .pow b _ => b
  | t => t

theorem powBase_size (t : Sympy) : sizeOf t.powBase ≤ sizeOf t := by
  cases t <;> simp [Sympy.powBase] <;> omega

theorem negationOperand_size (other t x : Sympy)
    (h : negationOperand other t = some x) :
    sizeOf x < sizeOf t ∨ x = other := by
  cases t with
  | mul factors =>
      match factors with
      | [] => simp [negationOperand] at h
      | [a] => cases a <;> simp [negationOperand] at h
      | a :: b :: c :: rest => cases a <;> simp [negationOperand] at h
      | [a, b] =>
          cases a <;> simp [negationOperand] at h
          rcases h with ⟨-, rfl⟩
          left
          simp
          omega
  | int n =>
      simp only [negationOperand] at h
      split at h
      · right
        cases h
        rfl
      · cases h
  | symbol s => simp [negationOperand] at h
  | rational p q => simp [negationOperand] at h
  | realLit q => simp [negationOperand] at h
  | imagUnit => simp [negationOperand] at h
  | add terms => simp [negationOperand] at h
  | pow b e => simp [negationOperand] at h
  | func n args => simp [negationOperand] at h

/-- Modelled from the spec: the builder `expression_from_sympy`
(absent from the source tree; only its tests are present).
Classification rules in priority order: atomic named variable →
`Symbol`; numeric literal → native number (exact rational → its real
value, imaginary unit → `0+1i`); named function application →
`FunctionCall` preserving operand order; n-ary product → `div` when
classified as multiplication by a reciprocal (exactly two factors,
exactly one a power with exponent `-1`), else `mul` preserving factor
order; n-ary sum → `sub` when exactly one of two terms is
syntactically a negation (a two-negation sum falls back to plain
`add`, the conservative fallback of the spec), else `add` preserving
term order; power with exponent literal `-1` → `div (1, base)`, else
`pow`. -/
def build : Sympy → Expression
  | .symbol s => .symbol ⟨s⟩
  | .int n => .num (.int n)
  | .rational p q => .num (.real ((p : ℚ) / (q : ℚ)))
  | .realLit q => .num (.real q)
  | .imagUnit => .num (.complex 0 1)
  | .func name args => .call name (args.attach.map fun a => build a.1)
  | .pow b e =>
      if e.isNegOneLit then .call "div" [.num (.int 1), build b]
      else .call "pow" [build b, build e]
  | .mul [a, b] =>
      if a.isReciprocalFactor && !b.isReciprocalFactor then
        .call "div" [build b, build a.powBase]
      else if b.isReciprocalFactor && !a.isReciprocalFactor then
        .call "div" [build a, build b.powBase]
      else .call "mul" [build a, build b]
  | .mul factors => .call "mul" (factors.attach.map fun f => build f.1)
  | .add [a, b] =>
      match h₁ : negationOperand b a, h₂ : negationOperand a b with
      | some x, none => .call "sub" [build b, build x]
      | none, some y => .call "sub" [build a, build y]
      | _, _ => .call "add" [build a, build b]
  | .add terms => .call "add" (terms.attach.map fun t => build t.1)
termination_by t => sizeOf t
decreasing_by
  all_goals simp_wf
  all_goals try omega
  · exact Nat.lt_of_lt_of_le (List.sizeOf_lt_of_mem a.2) (by omega)
  · have := powBase_size a
    omega
  · have := powBase_size b
    omega
  · exact Nat.lt_of_lt_of_le (List.sizeOf_lt_of_mem f.2) (by omega)
  · rcases negationOperand_size b a x h₁ with h | rfl <;> omega
  · rcases negationOperand_size a b y h₂ with h | rfl <;> omega
  · exact Nat.lt_of_lt_of_le (List.sizeOf_lt_of_mem t.2) (by omega)

mutual

/-- Size of an IR expression (number of nodes): the measure by which
`FunctionCall` arguments are structurally smaller than their parent. -/
def Expression.size : Expression → Nat
  | .symbol _ => 1
  | .num _ => 1
  | .call _ args => 1 + Expression.sizeList args

def Expression.sizeList : List Expression → Nat
  | [] => 0
  | e :: es => Expression.size e + Expression.sizeList es

end

mutual

/-- Every `FunctionCall` node of the expression (the node itself
included) has at least one argument. -/
def Expression.argsNonempty : Expression → Bool
  | .symbol _ => true
  | .num _ => true
  | .call _ args => 1 ≤ args.length && Expression.argsNonemptyList args

def Expression.argsNonemptyList : List Expression → Bool
  | [] => true
  | e :: es => Expression.argsNonempty e && Expression.argsNonemptyList es

end

mutual

/-- Well-formed foreign tree: the shapes the foreign library actually
produces — sums and products carry at least two operands, function
applications at least one. -/
def Sympy.wf : Sympy → Bool
  | .symbol _ => true
  | .int _ => true
  | .rational _ _ => true
  | .realLit _ => true
  | .imagUnit => true
  | .add ts => 2 ≤ ts.length && Sympy.wfList ts
  | .mul fs => 2 ≤ fs.length && Sympy.wfList fs
  | .pow b e => b.wf && e.wf
  | .func _ args => 1 ≤ args.length && Sympy.wfList args

def Sympy.wfList : List Sympy → Bool
  | [] => true
  | s :: ss => s.wf && Sympy.wfList ss

end

/-- Dialect of arithmetic expression (class `ExpressionDialect` in
`expressions.py`), parameterized by the target system's value type.
The Python `known_functions` dict is a partial map from operation name
to a variadic combinator; a combinator applied to an argument list of
the wrong arity raises, which is modelled by the inner `Option`. -/
structure ExpressionDialect (α : Type) where
  symbol_factory : Symbol → α
  number_factory : NativeNum → α
  known_functions : String → Option (List α → Option α)

/-- Failures of the translator: an IR function name missing from the
dialect's function table, or a combinator rejecting its arguments. -/
inductive TranslateError where
  | unknownOperation (name : String)
  | badCombinatorCall (name : String)
deriving DecidableEq, Repr

mutual

/-- Modelled from the spec: the translator `translate_expression`
(absent from the source tree). Pure structural recursion: a `Symbol`
goes through `symbol_factory`, a number through `number_factory`, and
a `FunctionCall` through the combinator looked up by name in
`known_functions`, applied to the recursively translated arguments;
a name absent from `known_functions` is an unknown-operation error. -/
def translate {α : Type} (d : ExpressionDialect α) :
    Expression → Except TranslateError α
  | .symbol s => .ok (d.symbol_factory s)
  | .num n => .ok (d.number_factory n)
  | .call name args =>
      match d.known_functions name with
      | none => .error (.unknownOperation name)
      | some comb =>
          match translateList d args with
          | .error e => .error e
          | .ok targs =>
              match comb targs with
              | some v => .ok v
              | none => .error (.badCombinatorCall name)

def translateList {α : Type} (d : ExpressionDialect α) :
    List Expression → Except TranslateError (List α)
  | [] => .ok []
  | e :: es =>
      match translate d e with
      | .error err => .error err
      | .ok v =>
          match translateList d es with
          | .error err => .error err
          | .ok vs => .ok (v :: vs)

end

mutual

/-- Fuel-indexed variant of `translate`: consumes one unit of fuel per
tree node it expands and gives up (`none`) when the fuel runs out.
Used to state that translation of a finite tree terminates. -/
def translateFuel {α : Type} (d : ExpressionDialect α) :
    Nat → Expression → Option (Except TranslateError α)
  | 0, _ => none
  | _ + 1, .symbol s => some (.ok (d.symbol_factory s))
  | _ + 1, .num n => some (.ok (d.number_factory n))
  | fuel + 1, .call name args =>
      match d.known_functions name with
      | none => some (.error (.unknownOperation name))
      | some comb =>
          match translateFuelList d fuel args with
          | none => none
          | some (.error e) => some (.error e)
          | some (.ok targs) =>
              match comb targs with
              | some v => some (.ok v)
              | none => some (.error (.badCombinatorCall name))

def translateFuelList {α : Type} (d : ExpressionDialect α) :
    Nat → List Expression → Option (Except TranslateError (List α))
  | _, [] => some (.ok [])
  | fuel, e :: es =>
      match translateFuel d fuel e with
      | none => none
      | some (.error err) => some (.error err)
      | some (.ok v) =>
          match translateFuelList d fuel es with
          | none => none
          | some (.error err) => some (.error err)
          | some (.ok vs) => some (.ok (v :: vs))

end

/-- Loop of Python's `functools.reduce(operator, iterable)` once the
first element has been taken as the initial accumulator. -/
def reduceLoop {α : Type} (f : α → α → α) (acc : α) : List α → α
  | [] => acc
  | x :: xs => reduceLoop f (f acc x) xs

/-- Python's `functools.reduce(operator, iterable)` with no initial
value: the first element seeds the accumulator; an empty iterable
raises (modelled by `none`). -/
def reduce {α : Type} (f : α → α → α) : List α → Option α
  | [] => none
  | x :: xs => some (reduceLoop f x xs)

/-- The combinator `reduction` of `expressions.py`: turns a binary
operator into a variadic function via `functools.reduce`. -/
def reduction {α : Type} (f : α → α → α) : List α → Option α :=
  fun args => reduce f args

/-- Expression of the target system of the example dialect (modelled
on the pyquil parameter expressions used by the test suite): named
parameters, numbers, the five arithmetic operations and the
transcendental functions the dialect knows. -/
inductive Target where
  | param (name : String)
  | num (n : NativeNum)
  | add (a b : Target)
  | sub (a b : Target)
  | mul (a b : Target)
  | div (a b : Target)
  | pow (a b : Target)
  | cos (a : Target)
  | sin (a : Target)
  | exp (a : Target)
deriving DecidableEq, Repr

/-- A binary target operation as a variadic combinator: accepts
exactly two arguments. -/
def binaryComb {α : Type} (f : α → α → α) : List α → Option α
  | [a, b] => some (f a b)
  | _ => none

/-- A unary target operation as a variadic combinator: accepts exactly
one argument. -/
def unaryComb {α : Type} (f : α → α) : List α → Option α
  | [a] => some (f a)
  | _ => none

/-- Modelled from the spec: the example dialect for the quil-like
target system (`QUIL_DIALECT`, absent from the source tree): symbol
factory creating a named parameter, number factory passing numbers
through, and a function table with n-ary `add`/`mul` built by
`reduction`, binary `sub`/`div`/`pow` and unary `cos`/`sin`/`exp`. -/
def QUIL_DIALECT : ExpressionDialect Target where
  symbol_factory := fun s => .param s.name
  number_factory := fun n => .num n
  known_functions := fun name =>
    if name = "add" then some (reduction Target.add)
    else if name = "mul" then some (reduction Target.mul)
    else if name = "sub" then some (binaryComb Target.sub)
    else if name = "div" then some (binaryComb Target.div)
    else if name = "pow" then some (binaryComb Target.pow)
    else if name = "cos" then some (unaryComb Target.cos)
    else if name = "sin" then some (unaryComb Target.sin)
    else if name = "exp" then some (unaryComb Target.exp)
    else none

/-- Numeric parameter of a `MultiPhaseOperation` (`Parameter` in
`_gates.py` is a union of sympy expressions and numbers): either a
native Python number or an unbound symbolic expression. -/
inductive MPParam where
  | num (v : NativeNum)
  | symbolic (name : String)
deriving DecidableEq, Repr

/-- Imaginary part of a native number (`param.imag` in Python; an
`int` or `float` has imaginary part `0`). -/
def NativeNum.imagPart : NativeNum → ℚ
  | .int _ => 0
  | .real _ => 0
  | .complex _ im => im

/-- The test of `MultiPhaseOperation.__post_init__`: the parameter is
a numeric value (`isinstance(param, Number)`) with nonzero imaginary
part (`param.imag != 0`). -/
def MPParam.isNonRealNumber : MPParam → Bool
  | .num v => v.imagPart != 0
  | .symbolic _ => false

/-- The value of `float(param)`: defined for `int` and `float`
parameters, undefined (`none`, a `TypeError` in Python) for complex
numbers and for unbound symbolic parameters. -/
def MPParam.floatValue : MPParam → Option ℚ
  | .num (.int n) => some (n : ℚ)
  | .num (.real q) => some q
  | .num (.complex _ _) => none
  | .symbolic _ => none

/-- Errors raised by `MultiPhaseOperation`: `ValueError` (non-real
numeric parameter at construction, or wavefunction length mismatch at
`apply`) and `RuntimeError` (unbound symbolic parameter at `apply`). -/
inductive MPError where
  | valueError
  | runtimeError
deriving DecidableEq, Repr

/-- Operation applying a distinct phase to each wavefunction
component (dataclass `MultiPhaseOperation`). -/
structure MultiPhaseOperation where
  params : List MPParam
deriving DecidableEq, Repr

/-- Construction of a `MultiPhaseOperation`, including
`__post_init__`: raises `ValueError` when any parameter is a numeric
value with nonzero imaginary part. -/
def MultiPhaseOperation.make (params : List MPParam) :
    Except MPError MultiPhaseOperation :=
  if params.any (fun p => p.isNonRealNumber) then .error .valueError
  else .ok ⟨params⟩

/-- Complex multiplication on pairs `(re, im)`. -/
def cmulQ (a b : ℚ × ℚ) : ℚ × ℚ :=
  (a.1 * b.1 - a.2 * b.2, a.1 * b.2 + a.2 * b.1)

/-- Cast of a whole parameter list to floats
(`np.asarray(self.params, dtype=float)`): fails as soon as one
parameter has no float value. -/
def floatCastList : List MPParam → Option (List ℚ)
  | [] => some []
  | p :: ps =>
      match p.floatValue with
      | none => none
      | some q =>
          match floatCastList ps with
          | none => none
          | some qs => some (q :: qs)

/-- `MultiPhaseOperation.apply`: raises `ValueError` when the
wavefunction length differs from the parameter count, and
`RuntimeError` when casting the parameters to floats fails (an
unbound symbolic parameter).  The floating `exp(i*theta)` is supplied
as `expI`, the one numeric primitive outside the model. -/
def MultiPhaseOperation.apply (expI : ℚ → ℚ × ℚ)
    (op : MultiPhaseOperation) (wavefunction : List (ℚ × ℚ)) :
    Except MPError (List (ℚ × ℚ)) :=
  if wavefunction.length ≠ op.params.length then .error .valueError
  else
    match floatCastList op.params with
    | none => .error .runtimeError
    | some thetas =>
        .ok (List.zipWith (fun ψ θ => cmulQ ψ (expI θ)) wavefunction thetas)

/-! Equation lemmas restating the defining clauses of `build` (whose
recursion is well-founded, so its equations are not definitional). -/

@[simp] theorem build_symbol (s : String) :
    build (.symbol s) = .symbol ⟨s⟩ := by
  simp [build]

@[simp] theorem build_int (n : Int) :
    build (.int n) = .num (.int n) := by
  simp [build]

@[simp] theorem build_rational (p q : Int) :
    build (.rational p q) = .num (.real ((p : ℚ) / (q : ℚ))) := by
  simp [build]

@[simp] theorem build_realLit (q : ℚ) :
    build (.realLit q) = .num (.real q) := by
  simp [build]

@[simp] theorem build_imagUnit :
    build .imagUnit = .num (.complex 0 1) := by
  simp [build]

@[simp] theorem build_func (name : String) (args : List Sympy) :
    build (.func name args) = .call name (args.map build) := by
  simp [build, List.attach_map_val]

theorem build_pow (b e : Sympy) :
    build (.pow b e) =
      if e.isNegOneLit then .call "div" [.num (.int 1), build b]
      else .call "pow" [build b, build e] := by
  simp [build]

theorem build_mul_pair (a b : Sympy) :
    build (.mul [a, b]) =
      if a.isReciprocalFactor && !b.isReciprocalFactor then
        .call "div" [build b, build a.powBase]
      else if b.isReciprocalFactor && !a.isReciprocalFactor then
        .call "div" [build a, build b.powBase]
      else .call "mul" [build a, build b] := by
  simp [build]

theorem build_mul_other (factors : List Sympy)
    (h : ∀ a b, factors ≠ [a, b]) :
    build (.mul factors) = .call "mul" (factors.map build) := by
  match factors with
  | [] => simp [build]
  | [a] => simp [build]
  | [a, b] => exact absurd rfl (h a b)
  | a :: b :: c :: rest => simp [build, List.attach_map_val]

theorem build_add_sub_left (a b x : Sympy)
    (h₁ : negationOperand b a = some x) (h₂ : negationOperand a b = none) :
    build (.add [a, b]) = .call "sub" [build b, build x] := by
  simp only [build]
  split <;> simp_all

theorem build_add_sub_right (a b y : Sympy)
    (h₁ : negationOperand b a = none) (h₂ : negationOperand a b = some y) :
    build (.add [a, b]) = .call "sub" [build a, build y] := by
  simp only [build]
  split <;> simp_all

theorem build_add_pair_none (a b : Sympy)
    (h₁ : negationOperand b a = none) (h₂ : negationOperand a b = none) :
    build (.add [a, b]) = .call "add" [build a, build b] := by
  simp only [build]
  split <;> simp_all

theorem build_add_pair_both (a b x y : Sympy)
    (h₁ : negationOperand b a = some x) (h₂ : negationOperand a b = some y) :
    build (.add [a, b]) = .call "add" [build a, build b] := by
  simp only [build]
  split <;> simp_all

theorem build_add_other (terms : List Sympy)
    (h : ∀ a b, terms ≠ [a, b]) :
    build (.add terms) = .call "add" (terms.map build) := by
  match terms with
  | [] => simp [build]
  | [a] => simp [build]
  | [a, b] => exact absurd rfl (h a b)
  | a :: b :: c :: rest => simp [build, List.attach_map_val]

theorem isNegationTerm_true_of_some {other t x : Sympy}
    (h : negationOperand other t = some x) : t.isNegationTerm = true :=
  (isNegationTerm_iff_negationOperand other t).mpr ⟨x, h⟩

theorem isNegationTerm_false_of_none {other t : Sympy}
    (h : negationOperand other t = none) : t.isNegationTerm = false := by
  cases ht : t.isNegationTerm
  · rfl
  · rcases (isNegationTerm_iff_negationOperand other t).mp ht with ⟨x, hx⟩
    rw [h] at hx
    cases hx

theorem wfList_iff (l : List Sympy) :
    Sympy.wfList l = true ↔ ∀ s ∈ l, s.wf = true := by
  induction l with
  | nil => simp [Sympy.wfList]
  | cons s ss ih => simp [Sympy.wfList, ih]

theorem argsNonemptyList_iff (l : List Expression) :
    Expression.argsNonemptyList l = true ↔
      ∀ e ∈ l, e.argsNonempty = true := by
  induction l with
  | nil => simp [Expression.argsNonemptyList]
  | cons e es ih => simp [Expression.argsNonemptyList, ih]

/-- The builder emits a top-level `div` from a product exactly when
`is_multiplication_by_reciprocal` classifies the product. -/
theorem build_mul_div_iff (factors : List Sympy) :
    (∃ args, build (.mul factors) = .call "div" args) ↔
      is_multiplication_by_reciprocal (.mul factors) = true := by
  rcases factors with _ | ⟨a, _ | ⟨b, _ | ⟨c, rest⟩⟩⟩
  · rw [build_mul_other _ (by intro a b h; cases h)]
    simp [is_multiplication_by_reciprocal]
  · rw [build_mul_other _ (by intro x y h; cases h)]
    simp [is_multiplication_by_reciprocal]
  · rw [build_mul_pair]
    cases ha : a.isReciprocalFactor <;> cases hb : b.isReciprocalFactor <;>
      simp [ha, hb, is_multiplication_by_reciprocal, List.countP_cons]
  · rw [build_mul_other _ (by intro x y h; cases h)]
    simp [is_multiplication_by_reciprocal]

/-- A product not classified as multiplication by a reciprocal builds
to a plain `mul` call with factor order preserved. -/
theorem build_mul_not_recip (factors : List Sympy)
    (h : is_multiplication_by_reciprocal (.mul factors) = false) :
    build (.mul factors) = .call "mul" (factors.map build) := by
  rcases factors with _ | ⟨a, _ | ⟨b, _ | ⟨c, rest⟩⟩⟩
  · exact build_mul_other _ (by intro x y hx; cases hx)
  · exact build_mul_other _ (by intro x y hx; cases hx)
  · rw [build_mul_pair]
    simp only [is_multiplication_by_reciprocal, List.countP_cons,
      List.countP_nil] at h
    cases ha : a.isReciprocalFactor <;> cases hb : b.isReciprocalFactor <;>
      simp [ha, hb] at h ⊢
  · exact build_mul_other _ (by intro x y hx; cases hx)

/-- The builder emits a top-level `sub` from a two-term sum exactly
when exactly one of the terms is syntactically a negation. -/
theorem build_add_sub_iff (a b : Sympy) :
    (∃ args, build (.add [a, b]) = .call "sub" args) ↔
      List.countP (fun t => t.isNegationTerm) [a, b] = 1 := by
  rcases h₁ : negationOperand b a with _ | x <;>
    rcases h₂ : negationOperand a b with _ | y
  · rw [build_add_pair_none a b h₁ h₂]
    simp [List.countP_cons, isNegationTerm_false_of_none h₁,
      isNegationTerm_false_of_none h₂]
  · rw [build_add_sub_right a b y h₁ h₂]
    simp [List.countP_cons, isNegationTerm_false_of_none h₁,
      isNegationTerm_true_of_some h₂]
  · rw [build_add_sub_left a b x h₁ h₂]
    simp [List.countP_cons, isNegationTerm_true_of_some h₁,
      isNegationTerm_false_of_none h₂]
  · rw [build_add_pair_both a b x y h₁ h₂]
    simp [List.countP_cons, isNegationTerm_true_of_some h₁,
      isNegationTerm_true_of_some h₂]

/-- A sum not classified as an addition of a single negation builds to
a plain `add` call with term order preserved. -/
theorem build_add_not_sub (terms : List Sympy)
    (h : terms.length ≠ 2 ∨
      List.countP (fun t => t.isNegationTerm) terms ≠ 1) :
    build (.add terms) = .call "add" (terms.map build) := by
  rcases terms with _ | ⟨a, _ | ⟨b, _ | ⟨c, rest⟩⟩⟩
  · exact build_add_other _ (by intro x y hx; cases hx)
  · exact build_add_other _ (by intro x y hx; cases hx)
  · have hcount : List.countP (fun t => t.isNegationTerm) [a, b] ≠ 1 := by
      rcases h with h | h
      · exact absurd rfl h
      · exact h
    rcases h₁ : negationOperand b a with _ | x <;>
      rcases h₂ : negationOperand a b with _ | y
    · exact build_add_pair_none a b h₁ h₂
    · exact absurd (by
        simp [List.countP_cons, isNegationTerm_false_of_none h₁,
          isNegationTerm_true_of_some h₂]) hcount
    · exact absurd (by
        simp [List.countP_cons, isNegationTerm_true_of_some h₁,
          isNegationTerm_false_of_none h₂]) hcount
    · exact build_add_pair_both a b x y h₁ h₂
  · exact build_add_other _ (by intro x y hx; cases hx)

/-- C1: for every pair of distinct symbols `x` and `y`, the builder
classifies a foreign product as a disguised division exactly when it
has exactly two factors and exactly one of them is a power with
exponent exactly `-1` (the predicate `is_multiplication_by_reciprocal`);
`build (x / y)` — the product `x * y**(-1)` sympy produces — returns
`FunctionCall "div" (Symbol x, Symbol y)`, while a plain product
`build (x * y)` returns `FunctionCall "mul" (Symbol x, Symbol y)` with
factor order preserved. -/
theorem claim_c1_reciprocal_classification (x y : String) (hxy : x ≠ y) :
    (∀ factors : List Sympy,
        (∃ args, build (.mul factors) = .call "div" args) ↔
          is_multiplication_by_reciprocal (.mul factors) = true) ∧
    build (.mul [.symbol x, .pow (.symbol y) (.int (-1))]) =
      .call "div" [.symbol ⟨x⟩, .symbol ⟨y⟩] ∧
    build (.mul [.symbol x, .symbol y]) =
      .call "mul" [.symbol ⟨x⟩, .symbol ⟨y⟩] := by
  refine ⟨build_mul_div_iff, ?_, ?_⟩
  · rw [build_mul_pair]
    simp [Sympy.isReciprocalFactor, Sympy.isNegOneLit, Sympy.powBase]
  · rw [build_mul_pair]
    simp [Sympy.isReciprocalFactor]

theorem claim_c1_reciprocal_witness :
    build (.mul [.symbol "x", .pow (.symbol "y") (.int (-1))]) =
      .call "div" [.symbol ⟨"x"⟩, .symbol ⟨"y"⟩] :=
  (claim_c1_reciprocal_classification "x" "y" (by decide)).2.1

/-- C2: the builder classifies a foreign two-term sum as a disguised
subtraction exactly when exactly one term is syntactically a negation
(a product with factors exactly `[-1, x]`, or the literal `-1`;
a sum with both terms negated falls back to plain `add`);
`build (x - y)` — the sum `x + (-1)*y` sympy produces — returns
`FunctionCall "sub" (Symbol x, Symbol y)`, `build (1 - x)` — the sum
`1 + (-1)*x` — returns `FunctionCall "sub" (1, Symbol x)`, while
`build (x + y)` returns `FunctionCall "add" (Symbol x, Symbol y)` and
is never classified as `sub`. -/
theorem claim_c2_negation_classification (x y : String) :
    (∀ a b : Sympy,
        (∃ args, build (.add [a, b]) = .call "sub" args) ↔
          List.countP (fun t => t.isNegationTerm) [a, b] = 1) ∧
    build (.add [.symbol x, .mul [.int (-1), .symbol y]]) =
      .call "sub" [.symbol ⟨x⟩, .symbol ⟨y⟩] ∧
    build (.add [.int 1, .mul [.int (-1), .symbol x]]) =
      .call "sub" [.num (.int 1), .symbol ⟨x⟩] ∧
    build (.add [.symbol x, .symbol y]) =
      .call "add" [.symbol ⟨x⟩, .symbol ⟨y⟩] := by
  refine ⟨build_add_sub_iff, ?_, ?_, ?_⟩
  · rw [build_add_sub_right (.symbol x) (.mul [.int (-1), .symbol y])
      (.symbol y) (by simp [negationOperand]) (by simp [negationOperand])]
    simp
  · rw [build_add_sub_right (.int 1) (.mul [.int (-1), .symbol x])
      (.symbol x) (by simp [negationOperand]) (by simp [negationOperand])]
    simp
  · rw [build_add_pair_none _ _ (by simp [negationOperand])
      (by simp [negationOperand])]
    simp

theorem claim_c2_negation_witness :
    build (.add [.symbol "x", .mul [.int (-1), .symbol "y"]]) =
      .call "sub" [.symbol ⟨"x"⟩, .symbol ⟨"y"⟩] :=
  (claim_c2_negation_classification "x" "y").2.1

/-- C3: for every foreign power node with base `b` and exponent `e`,
the builder emits `FunctionCall "div" (1, build b)` when `e` is the
literal `-1` and `FunctionCall "pow" (build b, build e)` otherwise; in
particular `build (pow x (-1)) = div (1, Symbol x)` and
`build (pow x 2) = pow (Symbol x, 2)`. -/
theorem claim_c3_power_rule (b e : Sympy) :
    (e.isNegOneLit = true →
      build (.pow b e) = .call "div" [.num (.int 1), build b]) ∧
    (e.isNegOneLit = false →
      build (.pow b e) = .call "pow" [build b, build e]) ∧
    build (.pow (.symbol "x") (.int (-1))) =
      .call "div" [.num (.int 1), .symbol ⟨"x"⟩] ∧
    build (.pow (.symbol "x") (.int 2)) =
      .call "pow" [.symbol ⟨"x"⟩, .num (.int 2)] := by
  refine ⟨?_, ?_, ?_, ?_⟩
  · intro h
    rw [build_pow, if_pos h]
  · intro h
    rw [build_pow, if_neg (by simp [h])]
  · rw [build_pow, if_pos (by decide)]
    simp
  · rw [build_pow, if_neg (by decide)]
    simp

theorem claim_c3_power_witness :
    build (.pow (.symbol "y") (.int (-1))) =
        .call "div" [.num (.int 1), build (.symbol "y")] ∧
      build (.pow (.symbol "y") (.int 2)) =
        .call "pow" [build (.symbol "y"), build (.int 2)] :=
  ⟨(claim_c3_power_rule (.symbol "y") (.int (-1))).1 (by decide),
   (claim_c3_power_rule (.symbol "y") (.int 2)).2.1 (by decide)⟩

theorem translateList_eq_mapM {α : Type} (d : ExpressionDialect α)
    (args : List Expression) :
    translateList d args = args.mapM (translate d) := by
  induction args with
  | nil => rfl
  | cons e es ih =>
      simp only [translateList, List.mapM_cons, ih]
      cases translate d e <;> cases es.mapM (translate d) <;> rfl

/-- C4: `translate` is a pure structural recursion — a `Symbol` is
mapped by `symbol_factory`, a number by `number_factory`, and a
`FunctionCall` by the `known_functions` entry for its name applied to
the recursively translated arguments; consequently translating the IR
built from `cos(2*theta)` with the quil dialect equals directly
constructing `cos(2 * parameter("theta"))` in the target system. -/
theorem claim_c4_translate_recursion {α : Type} (d : ExpressionDialect α)
    (s : Symbol) (n : NativeNum) (name : String) (args : List Expression)
    (comb : List α → Option α) (targs : List α) (v : α)
    (h : d.known_functions name = some comb)
    (hargs : translateList d args = .ok targs)
    (hcomb : comb targs = some v) :
    translate d (.symbol s) = .ok (d.symbol_factory s) ∧
    translate d (.num n) = .ok (d.number_factory n) ∧
    translate d (.call name args) = .ok v ∧
    translateList d args = args.mapM (translate d) ∧
    translate QUIL_DIALECT
        (build (.func "cos" [.mul [.int 2, .symbol "theta"]])) =
      .ok (.cos (.mul (.num (.int 2)) (.param "theta"))) := by
  refine ⟨rfl, rfl, ?_, translateList_eq_mapM d args, ?_⟩
  · simp only [translate, h, hargs, hcomb]
  · have hb : build (.func "cos" [.mul [.int 2, .symbol "theta"]]) =
        .call "cos" [.call "mul" [.num (.int 2), .symbol ⟨"theta"⟩]] := by
      rw [build_func]
      simp [build_mul_pair, Sympy.isReciprocalFactor]
    rw [hb]
    rfl

theorem claim_c4_translate_witness :
    translate QUIL_DIALECT (.call "cos" [.num (.int 2)]) =
      .ok (Target.cos (.num (.int 2))) :=
  (claim_c4_translate_recursion QUIL_DIALECT ⟨"x"⟩ (.int 0) "cos"
    [.num (.int 2)] (unaryComb Target.cos) [.num (.int 2)]
    (Target.cos (.num (.int 2))) rfl rfl rfl).2.2.1

/-- C5: for every dialect and every `FunctionCall` whose name is
absent from the dialect's `known_functions`, `translate` fails with an
unknown-operation error carrying the missing name; no partial result
is produced (the result type is all-or-nothing). -/
theorem claim_c5_unknown_function {α : Type} (d : ExpressionDialect α)
    (name : String) (args : List Expression)
    (h : d.known_functions name = none) :
    translate d (.call name args) = .error (.unknownOperation name) := by
  simp only [translate, h]

theorem claim_c5_unknown_witness :
    translate QUIL_DIALECT (.call "frobnicate" [.num (.int 1)]) =
      .error (.unknownOperation "frobnicate") :=
  claim_c5_unknown_function QUIL_DIALECT "frobnicate" [.num (.int 1)] rfl

/-- C6: a foreign numeric literal builds to a native number whose type
matches the literal's declared kind — an exact integer to an integer,
an exact rational to its real (float) value (`Rational(3,8)` to
`0.375`), a real literal to a real, and the imaginary unit to the
complex value with zero real part and unit imaginary part. -/
theorem claim_c6_literal_types :
    (∀ n : Int, build (.int n) = .num (.int n) ∧
        (NativeNum.int n).kind = .intKind) ∧
    (∀ p q : Int, build (.rational p q) = .num (.real ((p : ℚ) / (q : ℚ))) ∧
        (NativeNum.real ((p : ℚ) / (q : ℚ))).kind = .realKind) ∧
    (∀ q : ℚ, build (.realLit q) = .num (.real q) ∧
        (NativeNum.real q).kind = .realKind) ∧
    build (.rational 3 8) = .num (.real 0.375) ∧
    (build .imagUnit = .num (.complex 0 1) ∧
        (NativeNum.complex 0 1).kind = .complexKind) := by
  refine ⟨fun n => ⟨build_int n, rfl⟩,
    fun p q => ⟨build_rational p q, rfl⟩,
    fun q => ⟨build_realLit q, rfl⟩, ?_, build_imagUnit, rfl⟩
  rw [build_rational]
  norm_num

theorem reduceLoop_eq_foldl {α : Type} (f : α → α → α) (l : List α) :
    ∀ acc, reduceLoop f acc l = l.foldl f acc := by
  induction l with
  | nil => intro acc; rfl
  | cons x xs ih => intro acc; simp [reduceLoop, List.foldl, ih]

/-- C9: the variadic combinator `reduction f` computes, on a nonempty
argument list, the left-associated fold of `f` seeded with the first
argument (and in particular returns a single argument unchanged); the
dialect's n-ary `add` and `mul` entries are built with it. -/
theorem claim_c9_reduction_left_fold {α : Type} (f : α → α → α)
    (a : α) (as : List α) :
    reduction f (a :: as) = some (as.foldl f a) ∧
    reduction f [a] = some a ∧
    QUIL_DIALECT.known_functions "add" = some (reduction Target.add) ∧
    QUIL_DIALECT.known_functions "mul" = some (reduction Target.mul) := by
  refine ⟨?_, rfl, rfl, rfl⟩
  simp [reduction, reduce, reduceLoop_eq_foldl]

theorem size_pos (e : Expression) : 1 ≤ e.size := by
  cases e <;> simp [Expression.size]

theorem size_le_of_mem {a : Expression} {l : List Expression}
    (h : a ∈ l) : a.size ≤ Expression.sizeList l := by
  induction l with
  | nil => cases h
  | cons e es ih =>
      rcases List.mem_cons.mp h with rfl | h
      · simp [Expression.sizeList]
      · have := ih h
        simp [Expression.sizeList]
        omega

theorem translateFuelList_eq {α : Type} (d : ExpressionDialect α)
    (fuel : Nat) (es : List Expression)
    (h : ∀ e ∈ es, translateFuel d fuel e = some (translate d e)) :
    translateFuelList d fuel es = some (translateList d es) := by
  induction es with
  | nil => rfl
  | cons e es ih =>
      simp only [translateFuelList, translateList]
      rw [h e (by simp), ih (fun x hx => h x (by simp [hx]))]
      cases translate d e <;> cases translateList d es <;> rfl

theorem translateFuel_complete {α : Type} (d : ExpressionDialect α) :
    ∀ (fuel : Nat) (e : Expression), e.size ≤ fuel →
      translateFuel d fuel e = some (translate d e) := by
  intro fuel
  induction fuel with
  | zero =>
      intro e he
      have := size_pos e
      omega
  | succ n ih =>
      intro e he
      cases e with
      | symbol s => rfl
      | num m => rfl
      | call name args =>
          have hargs : ∀ a ∈ args, translateFuel d n a = some (translate d a) := by
            intro a ha
            apply ih
            have h1 := size_le_of_mem ha
            simp only [Expression.size] at he
            omega
          cases hk : d.known_functions name with
          | none => simp only [translateFuel, translate, hk]
          | some comb =>
              simp only [translateFuel, translate, hk,
                translateFuelList_eq d n args hargs]
              cases translateList d args with
              | error err => rfl
              | ok targs => cases h2 : comb targs <;> simp [h2]

/-- C8: translation of a finite IR tree terminates — the arguments of
a `FunctionCall` are strictly smaller than their parent, and running
the fuel-indexed translator with fuel bounded below by the tree size
never exhausts the fuel and agrees with `translate`. -/
theorem claim_c8_translate_terminates {α : Type} (d : ExpressionDialect α) :
    (∀ (name : String) (args : List Expression), ∀ a ∈ args,
        a.size < (Expression.call name args).size) ∧
    (∀ (fuel : Nat) (e : Expression), e.size ≤ fuel →
        translateFuel d fuel e = some (translate d e)) := by
  refine ⟨?_, translateFuel_complete d⟩
  intro name args a ha
  have := size_le_of_mem ha
  simp only [Expression.size]
  omega

theorem claim_c8_translate_witness :
    (Expression.num (.int 2)).size <
        (Expression.call "cos" [.num (.int 2)]).size ∧
      translateFuel QUIL_DIALECT 2 (.call "cos" [.num (.int 2)]) =
        some (translate QUIL_DIALECT (.call "cos" [.num (.int 2)])) :=
  ⟨(claim_c8_translate_terminates QUIL_DIALECT).1 "cos" [.num (.int 2)]
      (.num (.int 2)) (by simp),
   (claim_c8_translate_terminates QUIL_DIALECT).2 2
      (.call "cos" [.num (.int 2)]) (by decide)⟩

theorem negationOperand_wf {other t x : Sympy}
    (h : negationOperand other t = some x)
    (ht : t.wf = true) (hother : other.wf = true) : x.wf = true := by
  cases t with
  | mul factors =>
      match factors, ht with
      | [], _ => simp [negationOperand] at h
      | [a], _ => cases a <;> simp [negationOperand] at h
      | a :: b :: c :: rest, _ => cases a <;> simp [negationOperand] at h
      | [a, b], ht =>
          cases a <;> simp [negationOperand] at h
          rcases h with ⟨-, rfl⟩
          simp [Sympy.wf, Sympy.wfList] at ht
          exact ht
  | int n =>
      simp only [negationOperand] at h
      split at h
      · cases h
        exact hother
      · cases h
  | symbol s => simp [negationOperand] at h
  | rational p q => simp [negationOperand] at h
  | realLit q => simp [negationOperand] at h
  | imagUnit => simp [negationOperand] at h
  | add terms => simp [negationOperand] at h
  | pow b e => simp [negationOperand] at h
  | func n args => simp [negationOperand] at h

theorem build_argsNonempty_of_wf :
    ∀ (n : Nat) (s : Sympy), sizeOf s < n → s.wf = true →
      (build s).argsNonempty = true := by
  intro n
  induction n with
  | zero =>
      intro s hs _
      exact absurd hs (Nat.not_lt_zero _)
  | succ n ih =>
      intro s hsize hwf
      cases s with
      | symbol name => simp [Expression.argsNonempty]
      | int m => simp [Expression.argsNonempty]
      | rational p q => simp [Expression.argsNonempty]
      | realLit q => simp [Expression.argsNonempty]
      | imagUnit => simp [Expression.argsNonempty]
      | func name args =>
          rw [build_func]
          simp only [Sympy.wf, Bool.and_eq_true, decide_eq_true_eq] at hwf
          simp only [Expression.argsNonempty, Bool.and_eq_true,
            decide_eq_true_eq, List.length_map]
          refine ⟨hwf.1, (argsNonemptyList_iff _).mpr ?_⟩
          intro e he
          rcases List.mem_map.mp he with ⟨a, ha, rfl⟩
          have hlt : sizeOf a < sizeOf (Sympy.func name args) := by
            have := List.sizeOf_lt_of_mem ha
            simp
            omega
          exact ih a (by omega) ((wfList_iff args).mp hwf.2 a ha)
      | pow b e =>
          have hb : b.wf = true := by
            simp [Sympy.wf] at hwf
            exact hwf.1
          have he : e.wf = true := by
            simp [Sympy.wf] at hwf
            exact hwf.2
          have hsb : sizeOf b < n := by
            simp at hsize
            omega
          have hse : sizeOf e < n := by
            simp at hsize
            omega
          rw [build_pow]
          split <;>
            simp [Expression.argsNonempty, Expression.argsNonemptyList,
              ih b hsb hb, ih e hse he]
      | mul factors =>
          rcases factors with _ | ⟨a, _ | ⟨b, _ | ⟨c, rest⟩⟩⟩
          · simp [Sympy.wf] at hwf
          · simp [Sympy.wf] at hwf
          · have hwa : a.wf = true := by
              simp [Sympy.wf, Sympy.wfList] at hwf
              tauto
            have hwb : b.wf = true := by
              simp [Sympy.wf, Sympy.wfList] at hwf
              tauto
            have hsa : sizeOf a < n := by
              simp at hsize
              omega
            have hsb : sizeOf b < n := by
              simp at hsize
              omega
            rw [build_mul_pair]
            split
            · rename_i hcond
              have ha' : a.isReciprocalFactor = true := by
                simp only [Bool.and_eq_true] at hcond
                exact hcond.1
              rcases a with _ | _ | _ | _ | _ | _ | _ | ⟨ab, ae⟩ | _ <;>
                simp [Sympy.isReciprocalFactor] at ha'
              have hwab : ab.wf = true := by
                simp [Sympy.wf] at hwa
                exact hwa.1
              have hsab : sizeOf ab < n := by
                simp at hsize
                omega
              simp [Expression.argsNonempty, Expression.argsNonemptyList,
                Sympy.powBase, ih b hsb hwb, ih ab hsab hwab]
            · split
              · rename_i hcond
                have hb' : b.isReciprocalFactor = true := by
                  simp only [Bool.and_eq_true] at hcond
                  exact hcond.1
                rcases b with _ | _ | _ | _ | _ | _ | _ | ⟨bb, be⟩ | _ <;>
                  simp [Sympy.isReciprocalFactor] at hb'
                have hwbb : bb.wf = true := by
                  simp [Sympy.wf] at hwb
                  exact hwb.1
                have hsbb : sizeOf bb < n := by
                  simp at hsize
                  omega
                simp [Expression.argsNonempty, Expression.argsNonemptyList,
                  Sympy.powBase, ih a hsa hwa, ih bb hsbb hwbb]
              · simp [Expression.argsNonempty, Expression.argsNonemptyList,
                  ih a hsa hwa, ih b hsb hwb]
          · rw [build_mul_other _ (by intro x y hx; cases hx)]
            simp only [Sympy.wf, Bool.and_eq_true, decide_eq_true_eq] at hwf
            simp only [Expression.argsNonempty, Bool.and_eq_true,
              decide_eq_true_eq, List.length_map]
            refine ⟨by simp, (argsNonemptyList_iff _).mpr ?_⟩
            intro e he
            rcases List.mem_map.mp he with ⟨x, hx, rfl⟩
            have h1 := List.sizeOf_lt_of_mem hx
            have h2 : sizeOf (Sympy.mul (a :: b :: c :: rest)) =
                1 + sizeOf (a :: b :: c :: rest) := by simp
            exact ih x (by omega) ((wfList_iff _).mp hwf.2 x hx)
      | add terms =>
          rcases terms with _ | ⟨a, _ | ⟨b, _ | ⟨c, rest⟩⟩⟩
          · simp [Sympy.wf] at hwf
          · simp [Sympy.wf] at hwf
          · have hwa : a.wf = true := by
              simp [Sympy.wf, Sympy.wfList] at hwf
              tauto
            have hwb : b.wf = true := by
              simp [Sympy.wf, Sympy.wfList] at hwf
              tauto
            have hsa : sizeOf a < n := by
              simp at hsize
              omega
            have hsb : sizeOf b < n := by
              simp at hsize
              omega
            rcases h₁ : negationOperand b a with _ | x <;>
              rcases h₂ : negationOperand a b with _ | y
            · rw [build_add_pair_none a b h₁ h₂]
              simp [Expression.argsNonempty, Expression.argsNonemptyList,
                ih a hsa hwa, ih b hsb hwb]
            · have hwy : y.wf = true := negationOperand_wf h₂ hwb hwa
              have hsy : sizeOf y < n := by
                rcases negationOperand_size a b y h₂ with h | rfl <;> omega
              rw [build_add_sub_right a b y h₁ h₂]
              simp [Expression.argsNonempty, Expression.argsNonemptyList,
                ih a hsa hwa, ih y hsy hwy]
            · have hwx : x.wf = true := negationOperand_wf h₁ hwa hwb
              have hsx : sizeOf x < n := by
                rcases negationOperand_size b a x h₁ with h | rfl <;> omega
              rw [build_add_sub_left a b x h₁ h₂]
              simp [Expression.argsNonempty, Expression.argsNonemptyList,
                ih b hsb hwb, ih x hsx hwx]
            · rw [build_add_pair_both a b x y h₁ h₂]
              simp [Expression.argsNonempty, Expression.argsNonemptyList,
                ih a hsa hwa, ih b hsb hwb]
          · rw [build_add_other _ (by intro x y hx; cases hx)]
            simp only [Sympy.wf, Bool.and_eq_true, decide_eq_true_eq] at hwf
            simp only [Expression.argsNonempty, Bool.and_eq_true,
              decide_eq_true_eq, List.length_map]
            refine ⟨by simp, (argsNonemptyList_iff _).mpr ?_⟩
            intro e he
            rcases List.mem_map.mp he with ⟨x, hx, rfl⟩
            have h1 := List.sizeOf_lt_of_mem hx
            have h2 : sizeOf (Sympy.add (a :: b :: c :: rest)) =
                1 + sizeOf (a :: b :: c :: rest) := by simp
            exact ih x (by omega) ((wfList_iff _).mp hwf.2 x hx)

/-- C7: on any well-formed foreign tree, every `FunctionCall` node of
the IR the builder produces has at least one argument (an invariant
the `FunctionCall` type itself does not enforce), and the
classification rules that keep an operand list (function application,
plain product, plain sum) preserve the foreign node's operand order,
mapping `build` over the operands. -/
theorem claim_c7_call_args_invariant (s : Sympy) (h : s.wf = true) :
    (build s).argsNonempty = true ∧
    (∀ (name : String) (args : List Sympy),
        build (.func name args) = .call name (args.map build)) ∧
    (∀ factors : List Sympy,
        is_multiplication_by_reciprocal (.mul factors) = false →
        build (.mul factors) = .call "mul" (factors.map build)) ∧
    (∀ terms : List Sympy,
        (terms.length ≠ 2 ∨
          List.countP (fun t => t.isNegationTerm) terms ≠ 1) →
        build (.add terms) = .call "add" (terms.map build)) :=
  ⟨build_argsNonempty_of_wf (sizeOf s + 1) s (Nat.lt_succ_self _) h,
   build_func, build_mul_not_recip, build_add_not_sub⟩

theorem claim_c7_call_args_witness :
    (build (.func "cos" [.mul [.symbol "x", .symbol "y"]])).argsNonempty
      = true :=
  (claim_c7_call_args_invariant
    (.func "cos" [.mul [.symbol "x", .symbol "y"]]) (by decide)).1

theorem floatCastList_eq_none {params : List MPParam} {name : String}
    (h : MPParam.symbolic name ∈ params) :
    floatCastList params = none := by
  induction params with
  | nil => cases h
  | cons p ps ih =>
      rcases List.mem_cons.mp h with rfl | h
      · simp [floatCastList, MPParam.floatValue]
      · cases hf : p.floatValue <;> simp [floatCastList, hf, ih h]

/-- C10: constructing a `MultiPhaseOperation` raises `ValueError`
exactly when some parameter is a numeric value with nonzero imaginary
part; parameter lists containing only real numbers or symbolic
parameters are accepted, and the real-valuedness of symbolic
parameters is only checked at `apply`, which fails with
`RuntimeError` when an unbound symbolic parameter remains. -/
theorem claim_c10_multiphase_params (params : List MPParam) :
    (MultiPhaseOperation.make params = .error .valueError ↔
        ∃ p ∈ params, p.isNonRealNumber = true) ∧
    ((∀ p ∈ params, p.isNonRealNumber = false) →
        MultiPhaseOperation.make params = .ok ⟨params⟩) ∧
    (∀ (expI : ℚ → ℚ × ℚ) (wavefunction : List (ℚ × ℚ)) (name : String),
        MPParam.symbolic name ∈ params →
        wavefunction.length = params.length →
        MultiPhaseOperation.apply expI ⟨params⟩ wavefunction =
          .error .runtimeError) := by
  refine ⟨?_, ?_, ?_⟩
  · rw [MultiPhaseOperation.make]
    rcases hany : params.any (fun p => p.isNonRealNumber) with _ | _
    · simp only [Bool.false_eq_true, if_false]
      constructor
      · intro hc
        cases hc
      · intro hc
        rw [List.any_eq_false] at hany
        rcases hc with ⟨p, hp, hnr⟩
        exact absurd hnr (by simp [hany p hp])
    · simp only [if_true]
      rw [List.any_eq_true] at hany
      simpa using hany
  · intro hreal
    rw [MultiPhaseOperation.make, if_neg]
    simp only [List.any_eq_true, not_exists]
    intro p
    intro hc
    rcases hc with ⟨hp, hnr⟩
    exact absurd hnr (by simp [hreal p hp])
  · intro expI wavefunction name hmem hlen
    rw [MultiPhaseOperation.apply, if_neg (by simp [hlen])]
    rw [floatCastList_eq_none hmem]

theorem claim_c10_multiphase_witness :
    MultiPhaseOperation.make [MPParam.symbolic "theta", .num (.real 1)] =
        .ok ⟨[MPParam.symbolic "theta", .num (.real 1)]⟩ ∧
      MultiPhaseOperation.apply (fun _ => (1, 0))
          ⟨[MPParam.symbolic "theta", .num (.real 1)]⟩ [(1, 0), (0, 0)] =
        .error .runtimeError :=
  ⟨(claim_c10_multiphase_params _).2.1 (by decide),
   (claim_c10_multiphase_params _).2.2 (fun _ => (1, 0)) [(1, 0), (0, 0)]
      "theta" (by simp) (by simp)⟩

end ZQ
